import Mathlib

/-!
Shallow embedding of the highlight-aggregation core of the yt-highlight
repository, together with proofs about it.

Times are modelled as rationals (`ℚ`): the JavaScript sources only ever
add, subtract, divide and compare finite timestamp values, and every
concrete value appearing in the claims is exactly representable.
JavaScript `NaN` is modelled by `Option.none` where it can arise.

The file contains, in order:
* the cross-source merge of `src/src/App.jsx` (`combinedTimestamps`
  useEffect, lines 231-292): two stable sorts followed by a 1-second
  deduplication sweep;
* the cross-source merge of the first `App` in
  `src/frontend/src/App.jsx` (lines 274-377), whose sort breaks ties by
  priority only for times within 0.1 s and which also carries
  most-replayed candidates;
* the time codec of `src/src/VideoPlayer.jsx` (`secondsToTimestamp`,
  `timestampToSeconds`) and the guarded `timestampToSeconds` of
  `src/src/VideoComments.jsx`;
* the ±20 s proximity clustering of `src/src/VideoComments.jsx`
  (`fetchComments`, groupLeaders/groupCounts);
* the polling loop of `processAudioAnalysis` in `src/src/App.jsx`
  (2-second interval, 90 attempts, `not_started` re-submission);
* the submit/late-poll state handling of `src/src/App.jsx`
  (`handleVideoSubmit` and the poll success branch);
* the timeline pointer handlers of `src/src/VideoPlayer.jsx`
  (`handleTimelineClick`, unclamped) and of the `VideoPlayer` variant in
  `src/unnamed/part_000` (`handleTimelineInteraction`, clamped).
-/

/-- JavaScript `Math.abs` on finite values. -/
def jsAbs (q : ℚ) : ℚ := if q < 0 then -q else q


/-- Source types occurring in the merge of `src/src/App.jsx`: its
`priorityOrder` map is `{ priority: 0, comment: 1, audio: 2 }` and its
three inputs are the priority-comment, regular-comment and audio
timestamp lists; no most-replayed source exists in this version. -/
inductive SrcType where
  | priority
  | comment
  | audio
deriving DecidableEq, Repr

/-- Source types occurring in the merges of `src/frontend/src/App.jsx`,
whose `priorityOrder` map is
`{ priority: 0, mostReplayed: 1, comment: 2, audio: 3 }`. -/
inductive FType where
  | priority
  | mostReplayed
  | comment
  | audio
deriving DecidableEq, Repr

namespace SrcApp

/-- `priorityOrder = { 'priority': 0, 'comment': 1, 'audio': 2 }`
(`src/src/App.jsx` line 252). -/
def priorityOrder : SrcType → ℤ
  | .priority => 0
  | .comment => 1
  | .audio => 2

/-- A formatted stamp as built by `formatStamp` in the
`combinedTimestamps` useEffect of `src/src/App.jsx` (the `color` string
is display-only and omitted). -/
structure Stamp where
  time : ℚ
  type : SrcType
deriving DecidableEq, Repr

/-- First sort comparator, `(a, b) => a.time - b.time`
(`src/src/App.jsx` line 245). -/
def compareTime (a b : Stamp) : ℚ := a.time - b.time

/-- Second sort comparator (`src/src/App.jsx` lines 255-261): time
difference, with the priority rank difference when the times are exactly
equal. -/
def compareStamps (a b : Stamp) : ℚ :=
  if a.time - b.time = 0 then ((priorityOrder a.type - priorityOrder b.type : ℤ) : ℚ)
  else a.time - b.time

/-- "`a` sorts no later than `b`" for the first (time-only) sort. -/
def timeLE (a b : Stamp) : Prop := compareTime a b ≤ 0

/-- "`a` sorts no later than `b`" for the second (priority tie-break)
sort. -/
def stampLE (a b : Stamp) : Prop := compareStamps a b ≤ 0

instance : DecidableRel timeLE :=
  fun a b => inferInstanceAs (Decidable (compareTime a b ≤ 0))

instance : DecidableRel stampLE :=
  fun a b => inferInstanceAs (Decidable (compareStamps a b ≤ 0))

/-- `Array.from(seenTimes).some(existingTime => Math.abs(existingTime -
stamp.time) < 1)` (`src/src/App.jsx` lines 280-282). -/
def isCloseToSeen (seen : List ℚ) (t : ℚ) : Bool :=
  seen.any fun u => decide (jsAbs (u - t) < 1)

/-- The deduplication sweep of `src/src/App.jsx` lines 263-288: walk the
sorted list, keep a stamp only when no previously kept time lies within
1 second, and record kept times in `seen`. -/
def dedupGo (acc : List Stamp) (seen : List ℚ) : List Stamp → List Stamp
  | [] => acc
  | s :: rest =>
    if isCloseToSeen seen s.time then dedupGo acc seen rest
    else dedupGo (acc ++ [s]) (seen ++ [s.time]) rest

/-- The full sweep, started with empty `deduplicated` and `seenTimes`. -/
def dedupSweep (l : List Stamp) : List Stamp := dedupGo [] [] l

/-- The two consecutive stable sorts of `src/src/App.jsx` (line 245 and
lines 255-261), modelled by insertion sort, which is stable like the
ECMAScript `Array.prototype.sort`. -/
def sortPass (l : List Stamp) : List Stamp :=
  List.insertionSort stampLE (List.insertionSort timeLE l)

/-- The cross-source merge: sort, then deduplicate with the 1-second
window. -/
def merge (l : List Stamp) : List Stamp := dedupSweep (sortPass l)

/-- `formatStamp` of `src/src/App.jsx` lines 232-236, applied to an
already-numeric time. -/
def formatStamp (t : ℚ) (ty : SrcType) : Stamp := ⟨t, ty⟩

/-- The whole `combinedTimestamps` computation of `src/src/App.jsx`
lines 231-292 from the three source lists. -/
def combinedTimestamps (p r a : List ℚ) : List Stamp :=
  merge ((p.map fun t => formatStamp t .priority)
    ++ (r.map fun t => formatStamp t .comment)
    ++ (a.map fun t => formatStamp t .audio))

/-- Markers at least one second apart in increasing order. -/
def Sep (l : List Stamp) : Prop := l.Pairwise fun x y => x.time + 1 ≤ y.time

end SrcApp

namespace FApp

/-- `priorityOrder = { 'priority': 0, 'mostReplayed': 1, 'comment': 2,
'audio': 3 }` (`src/frontend/src/App.jsx` line 349). -/
def priorityOrder : FType → ℤ
  | .priority => 0
  | .mostReplayed => 1
  | .comment => 2
  | .audio => 3

/-- A formatted stamp as built by `formatStamp` in the first
`combinedTimestamps` useEffect of `src/frontend/src/App.jsx` (the color
and optional label are display-only and omitted). -/
structure Stamp where
  time : ℚ
  type : FType
deriving DecidableEq, Repr

/-- Sort comparator of `src/frontend/src/App.jsx` lines 350-356: the
priority rank difference when the times differ by less than 0.1 s,
otherwise the time difference. -/
def compareStamps (a b : Stamp) : ℚ :=
  if jsAbs (a.time - b.time) < 1/10 then ((priorityOrder a.type - priorityOrder b.type : ℤ) : ℚ)
  else a.time - b.time

/-- "`a` sorts no later than `b`" for the frontend sort. -/
def stampLE (a b : Stamp) : Prop := compareStamps a b ≤ 0

instance : DecidableRel stampLE :=
  fun a b => inferInstanceAs (Decidable (compareStamps a b ≤ 0))

/-- The 1-second proximity test against all previously kept times
(`src/frontend/src/App.jsx` lines 362-364). -/
def isCloseToSeen (seen : List ℚ) (t : ℚ) : Bool :=
  seen.any fun u => decide (jsAbs (u - t) < 1)

/-- The deduplication sweep of `src/frontend/src/App.jsx` lines 358-373
(same shape as the src version). -/
def dedupGo (acc : List Stamp) (seen : List ℚ) : List Stamp → List Stamp
  | [] => acc
  | s :: rest =>
    if isCloseToSeen seen s.time then dedupGo acc seen rest
    else dedupGo (acc ++ [s]) (seen ++ [s.time]) rest

/-- The full sweep, started empty. -/
def dedupSweep (l : List Stamp) : List Stamp := dedupGo [] [] l

/-- The frontend merge (`src/frontend/src/App.jsx` lines 346-376): one
stable sort with the 0.1-second priority tie-break, then the 1-second
deduplication sweep. -/
def merge (l : List Stamp) : List Stamp :=
  dedupSweep (List.insertionSort stampLE l)

end FApp

/-- An audio-only candidate list descending from 10 s in 0.09 s steps.
Every adjacent pair differs by less than the 0.1 s tie tolerance of the
frontend comparator, which therefore reports a tie (audio-audio rank
difference 0) on each adjacent comparison, so the stable sort leaves
the descending list unchanged. -/
def descendingAudioStamps : List FApp.Stamp :=
  [⟨10, .audio⟩, ⟨991/100, .audio⟩, ⟨982/100, .audio⟩, ⟨973/100, .audio⟩,
   ⟨964/100, .audio⟩, ⟨955/100, .audio⟩, ⟨946/100, .audio⟩, ⟨937/100, .audio⟩,
   ⟨928/100, .audio⟩, ⟨919/100, .audio⟩, ⟨91/10, .audio⟩, ⟨901/100, .audio⟩,
   ⟨223/25, .audio⟩]

namespace Codec

/-- The ten decimal digit characters admitted by the decimal part of the
JavaScript `StringNumericLiteral` grammar. -/
def digitChars : List Char := ['0', '1', '2', '3', '4', '5', '6', '7', '8', '9']

/-- Whether a character is a decimal digit. -/
def isDigitC (c : Char) : Bool := decide (c ∈ digitChars)

/-- The common whitespace characters stripped by `Number(string)` before
parsing (space, tab, line feed, carriage return). -/
def isWSChar (c : Char) : Bool := decide (c ∈ [' ', '\t', '\n', '\r'])

/-- Numeric value of a digit character. -/
def digitVal (c : Char) : ℕ := c.toNat - '0'.toNat

/-- Value of a most-significant-digit-first digit string. -/
def decDigitsVal (ds : List Char) : ℕ := ds.foldl (fun a c => 10 * a + digitVal c) 0

/-- Strip leading and trailing whitespace, as `Number(string)` does. -/
def trimWS (s : List Char) : List Char :=
  ((s.dropWhile isWSChar).reverse.dropWhile isWSChar).reverse

/-- Parse the exponent that may follow a mantissa in a JavaScript decimal
numeral: an optional sign and a nonempty digit string. -/
def parseExpPart (m : ℚ) : List Char → Option ℚ
  | '+' :: r => if r ≠ [] ∧ r.all isDigitC then some (m * 10 ^ decDigitsVal r) else none
  | '-' :: r => if r ≠ [] ∧ r.all isDigitC then some (m / 10 ^ decDigitsVal r) else none
  | r => if r ≠ [] ∧ r.all isDigitC then some (m * 10 ^ decDigitsVal r) else none

/-- Parse the mantissa of a JavaScript decimal numeral: digits, an
optional decimal point with further digits, with at least one digit in
total; returns the value and the unconsumed suffix. -/
def parseMantissa (s : List Char) : Option (ℚ × List Char) :=
  let ip := s.takeWhile isDigitC
  let r1 := s.dropWhile isDigitC
  match r1 with
  | '.' :: r2 =>
    let fp := r2.takeWhile isDigitC
    let r3 := r2.dropWhile isDigitC
    if ip.isEmpty ∧ fp.isEmpty then none
    else some ((decDigitsVal ip : ℚ) + (decDigitsVal fp : ℚ) / 10 ^ fp.length, r3)
  | _ => if ip.isEmpty then none else some ((decDigitsVal ip : ℚ), r1)

/-- Parse an unsigned JavaScript decimal numeral (mantissa with optional
exponent); the whole input must be consumed. -/
def parseUnsignedNum (s : List Char) : Option ℚ :=
  match parseMantissa s with
  | none => none
  | some (m, rest) =>
    match rest with
    | [] => some m
    | 'e' :: r => parseExpPart m r
    | 'E' :: r => parseExpPart m r
    | _ => none

/-- Model of the JavaScript `Number(string)` coercion used by
`timestampToSeconds` via `.map(Number)`: whitespace is trimmed, the
empty string is `0`, otherwise a signed decimal numeral is parsed.
`none` models `NaN`; the non-finite and non-decimal corner forms
(`Infinity`, hex/octal/binary literals) are outside the numerals this
codec ever produces or the claims mention and are likewise mapped to
`none`. -/
def jsNumber (s : List Char) : Option ℚ :=
  match trimWS s with
  | [] => some 0
  | c :: r =>
    if c = '-' then (parseUnsignedNum r).map (fun q => -q)
    else if c = '+' then parseUnsignedNum r
    else parseUnsignedNum (c :: r)

/-- `String.prototype.split(sep)` for a single-character separator. -/
def splitOnChar (sep : Char) : List Char → List (List Char)
  | [] => [[]]
  | c :: rest =>
    let ps := splitOnChar sep rest
    if c = sep then [] :: ps
    else (c :: ps.headI) :: ps.tail

/-- `timestampToSeconds` of `src/src/VideoPlayer.jsx` lines 49-57: split
on `:`, coerce each part with `Number`, and combine; there is no `isNaN`
guard, so a `NaN` part propagates through the arithmetic (modelled by
the `Option` bind). Shapes other than 2 or 3 parts yield `0`. -/
def vpTimestampToSeconds (s : List Char) : Option ℚ :=
  match (splitOnChar ':' s).map jsNumber with
  | [m, s2] => do
    let mv ← m
    let sv ← s2
    pure (mv * 60 + sv)
  | [h, m, s2] => do
    let hv ← h
    let mv ← m
    let sv ← s2
    pure (hv * 3600 + mv * 60 + sv)
  | _ => some 0

/-- `timestampToSeconds` of `src/src/VideoComments.jsx` lines 126-137:
same shape, but an empty input returns `0` early and
`parts.some(isNaN)` forces the result to `0` before any arithmetic, so
the result is always a plain number. -/
def vcTimestampToSeconds (s : List Char) : ℚ :=
  if s.isEmpty then 0
  else
    let parts := (splitOnChar ':' s).map jsNumber
    if parts.any (fun p => p.isNone) then 0
    else
      match parts.map (fun p => p.getD 0) with
      | [m, s2] => m * 60 + s2
      | [h, m, s2] => h * 3600 + m * 60 + s2
      | _ => 0

/-- Truncation toward zero, as used by the JavaScript `%` operator. -/
def ratTrunc (q : ℚ) : ℤ := if q < 0 then -⌊-q⌋ else ⌊q⌋

/-- The JavaScript remainder `a % b` on finite values: it has the sign
of the dividend, `a - b * trunc(a / b)`. -/
def jsMod (a b : ℚ) : ℚ := a - b * ratTrunc (a / b)

/-- Decimal digit string of a natural number, as
`Number.prototype.toString` renders nonnegative integral values. -/
def natToChars (n : ℕ) : List Char :=
  if n = 0 then ['0'] else ((Nat.digits 10 n).map Nat.digitChar).reverse

/-- `Number.prototype.toString` for integral values. -/
def intToChars (i : ℤ) : List Char :=
  if i < 0 then '-' :: natToChars (-i).toNat else natToChars i.toNat

/-- `String.prototype.padStart(2, '0')`. -/
def padTwo (s : List Char) : List Char :=
  if s.length < 2 then List.replicate (2 - s.length) '0' ++ s else s

/-- `secondsToTimestamp` of `src/src/VideoPlayer.jsx` lines 37-46:
floored hour/minute/second fields, rendered `H:MM:SS` when the hour
field is positive and `M:SS` otherwise, with the trailing fields
zero-padded to two characters. -/
def secondsToTimestamp (s : ℚ) : List Char :=
  let hours : ℤ := ⌊s / 3600⌋
  let minutes : ℤ := ⌊jsMod s 3600 / 60⌋
  let secs : ℤ := ⌊jsMod s 60⌋
  if 0 < hours then
    intToChars hours ++ ':' :: (padTwo (intToChars minutes) ++ ':' :: padTwo (intToChars secs))
  else
    intToChars minutes ++ ':' :: padTwo (intToChars secs)

end Codec

namespace VC

/-- `[...new Set(list)]`: deduplication preserving first-occurrence
order, one insertion step. -/
def insertUniqueQ (acc : List ℚ) (x : ℚ) : List ℚ := if x ∈ acc then acc else acc ++ [x]

/-- `[...new Set(list)]` over a whole list. -/
def uniqueList (l : List ℚ) : List ℚ := l.foldl insertUniqueQ []

/-- `[...new Set(allTimestampsInSeconds)].sort((a, b) => a - b)`
(`src/src/VideoComments.jsx` line 195). -/
def sortedSeconds (l : List ℚ) : List ℚ :=
  (uniqueList l).insertionSort (· ≤ ·)

/-- The inner loop of `src/src/VideoComments.jsx` lines 201-207: scan
the previously processed seconds and take the least one lying within 20
of `sec` and below the current leader; the value itself is the initial
leader. -/
def findLeader (seen : List ℚ) (sec : ℚ) : ℚ :=
  seen.foldl (fun leader u => if jsAbs (u - sec) ≤ 20 ∧ u < leader then u else leader) sec

/-- `groupCounts[leader] = (groupCounts[leader] || 0) + 1`, with the
counts kept as an association list in key-insertion order. -/
def bumpCount (counts : List (ℚ × ℕ)) (k : ℚ) : List (ℚ × ℕ) :=
  if counts.any (fun p => decide (p.1 = k)) then
    counts.map fun p => if p.1 = k then (p.1, p.2 + 1) else p
  else counts ++ [(k, 1)]

/-- One iteration of the `for (const sec of sortedSeconds)` loop
(`src/src/VideoComments.jsx` lines 200-210): record the leader of `sec`
and bump that leader's count. -/
def groupStep (st : List (ℚ × ℚ) × List (ℚ × ℕ)) (sec : ℚ) :
    List (ℚ × ℚ) × List (ℚ × ℕ) :=
  let leader := findLeader (st.1.map Prod.fst) sec
  (st.1 ++ [(sec, leader)], bumpCount st.2 leader)

/-- `groupLeaders` and `groupCounts` as computed by `fetchComments`
(`src/src/VideoComments.jsx` lines 193-211), both in insertion order. -/
def groupLeadersCounts (l : List ℚ) : List (ℚ × ℚ) × List (ℚ × ℕ) :=
  (sortedSeconds l).foldl groupStep ([], [])

end VC

namespace Poll

/-- The possible poll responses distinguished by the polling loop of
`processAudioAnalysis` (`src/src/App.jsx` lines 146-183): a success
payload, a reported error status, `not_started`, `processing`, an
unrecognized status, or a failed poll request (non-OK response or
network error, which the catch block turns into an error). -/
inductive PollMsg where
  | success (highlights : List ℚ)
  | statusError
  | notStarted
  | processing
  | unknownStatus
  | pollFailure
deriving DecidableEq, Repr

/-- The state slices the polling loop can write: the stored audio
result, whether an error message was surfaced, whether the timeout
message was surfaced, the loop flag, the attempt counter and the number
of `not_started` re-submissions issued. -/
structure PollState where
  audio : Option (List ℚ)
  errorShown : Bool
  timedOut : Bool
  polling : Bool
  attempts : ℕ
  resubmits : ℕ
deriving DecidableEq, Repr

/-- State on entry to the polling phase: `polling = true`, `attempts =
0`, no result (`setAudioTimestamps([])` ran at the start of
`processAudioAnalysis`). -/
def initialPollState : PollState :=
  { audio := none, errorShown := false, timedOut := false,
    polling := true, attempts := 0, resubmits := 0 }

/-- `const maxAttempts = 90` (`src/src/App.jsx` line 122). -/
def maxAttempts : ℕ := 90

/-- Effect of one poll response on the state (`src/src/App.jsx` lines
146-183): `success` stores the highlights and stops; `error` and a
failed request surface an error and stop; `not_started` re-POSTs the
initial request (counted in `resubmits`) and keeps polling;
`processing` and unknown statuses only log. -/
def applyMsg (s : PollState) (m : PollMsg) : PollState :=
  match m with
  | .success hs => { s with audio := some hs, polling := false }
  | .statusError => { s with errorShown := true, polling := false }
  | .notStarted => { s with resubmits := s.resubmits + 1 }
  | .processing => s
  | .unknownStatus => s
  | .pollFailure => { s with errorShown := true, polling := false }

/-- The `while (polling && attempts < maxAttempts)` loop
(`src/src/App.jsx` lines 125-184): each iteration increments `attempts`
and handles the next response. The structural fuel only bounds the
recursion; started with fuel `maxAttempts` and `attempts = 0` it runs
the loop to its exit condition exactly. -/
def pollLoop (responses : ℕ → PollMsg) : ℕ → PollState → PollState
  | 0, s => s
  | fuel + 1, s =>
    if s.polling ∧ s.attempts < maxAttempts then
      pollLoop responses fuel (applyMsg { s with attempts := s.attempts + 1 } (responses s.attempts))
    else s

/-- The polling phase of `processAudioAnalysis` including the timeout
check after the loop (`src/src/App.jsx` lines 186-189): if the attempt
bound was exhausted while still polling, the timeout error is surfaced. -/
def runPolling (responses : ℕ → PollMsg) : PollState :=
  let fin := pollLoop responses maxAttempts initialPollState
  if maxAttempts ≤ fin.attempts ∧ fin.polling then
    { fin with timedOut := true, errorShown := true }
  else fin

/-- Poll responses that neither store a result nor stop the loop. -/
def nonTerminal (m : PollMsg) : Prop :=
  m = PollMsg.notStarted ∨ m = PollMsg.processing ∨ m = PollMsg.unknownStatus

end Poll

/-- A poll-response stream that reports `not_started` on the first two
polls and then succeeds with an empty highlight list. -/
def twoNotStartedResponses : ℕ → Poll.PollMsg :=
  fun k => if k < 2 then Poll.PollMsg.notStarted else Poll.PollMsg.success []

namespace SrcApp

/-- The state slices of the `App` component of `src/src/App.jsx`
relevant to job submission and late poll responses. -/
structure AppState where
  appVideoId : List Char
  videoUrl : List Char
  priorityTimestamps : List ℚ
  regularTimestamps : List ℚ
  audioTimestamps : List ℚ
  errorShown : Bool
deriving DecidableEq, Repr

/-- Initial component state. -/
def initialAppState : AppState :=
  { appVideoId := [], videoUrl := [], priorityTimestamps := [],
    regularTimestamps := [], audioTimestamps := [], errorShown := false }

/-- The valid-URL branch of `handleVideoSubmit` (`src/src/App.jsx` lines
201-228): clear every candidate list and error, then install the new
video. The regex video-id extraction is abstracted to the URL itself;
none of the claims depends on it. -/
def handleVideoSubmit (s : AppState) (url : List Char) : AppState :=
  { s with appVideoId := url, videoUrl := url,
           priorityTimestamps := [], regularTimestamps := [],
           audioTimestamps := [], errorShown := false }

/-- The success branch of the polling loop (`src/src/App.jsx` lines
146-150): `setAudioTimestamps(formattedHighlights)` runs
unconditionally. `jobUrl` is the `urlForAnalysis` captured by the
polling closure; the code contains no comparison of it against any
currently active job before the write, which is exactly what the
cancellation claim is about. -/
def applyLatePollSuccess (s : AppState) (jobUrl : List Char)
    (highlights : List ℚ) : AppState :=
  { s with audioTimestamps := highlights }

/-- Events of the single-threaded interleaving relevant to stale-job
cancellation: a URL submission, or a late success response from the
polling loop started for `jobUrl`. -/
inductive AppEvent where
  | submit (url : List Char)
  | latePollSuccess (jobUrl : List Char) (highlights : List ℚ)

/-- Apply one event to the component state. -/
def appStep (s : AppState) (e : AppEvent) : AppState :=
  match e with
  | .submit url => handleVideoSubmit s url
  | .latePollSuccess jobUrl hs => applyLatePollSuccess s jobUrl hs

/-- Run a sequence of events from the initial state. -/
def runApp (es : List AppEvent) : AppState := es.foldl appStep initialAppState

end SrcApp

namespace Timeline

/-- `handleTimelineClick` of `src/src/VideoPlayer.jsx` lines 137-146:
the seek time passed to `seekTo` is the raw fraction
`(e.clientX - rect.left) / rect.width` times the duration — no
clamping is performed. -/
def handleTimelineClickTime (clientX rectLeft rectWidth duration : ℚ) : ℚ :=
  ((clientX - rectLeft) / rectWidth) * duration

/-- `handleTimelineInteraction` of the `VideoPlayer` variant in
`src/unnamed/part_000` lines 196-215: the fraction is clamped with
`Math.max(0, Math.min(1, newTimeFraction))` before scaling by the
duration. -/
def handleTimelineInteractionTime (clientX rectLeft rectWidth duration : ℚ) : ℚ :=
  max 0 (min 1 ((clientX - rectLeft) / rectWidth)) * duration

end Timeline

theorem jsAbs_eq_abs (q : ℚ) : jsAbs q = |q| := by
  unfold jsAbs
  split
  · exact (abs_of_neg (by assumption)).symm
  · exact (abs_of_nonneg (not_lt.mp (by assumption))).symm

theorem add_one_le_of_far {u t : ℚ} (hle : u ≤ t) (hfar : 1 ≤ jsAbs (u - t)) :
    u + 1 ≤ t := by
  rw [jsAbs_eq_abs, abs_sub_comm, abs_of_nonneg (sub_nonneg.mpr hle)] at hfar
  linarith

theorem far_of_add_one_le {u t : ℚ} (h : u + 1 ≤ t) : 1 ≤ jsAbs (u - t) := by
  rw [jsAbs_eq_abs, abs_sub_comm, abs_of_nonneg (by linarith : (0 : ℚ) ≤ t - u)]
  linarith
namespace SrcApp

theorem timeLE_iff (a b : Stamp) : timeLE a b ↔ a.time ≤ b.time := by
  unfold timeLE compareTime
  exact sub_nonpos

theorem stampLE_iff (a b : Stamp) :
    stampLE a b ↔
      a.time < b.time ∨ (a.time = b.time ∧ priorityOrder a.type ≤ priorityOrder b.type) := by
  unfold stampLE compareStamps
  by_cases h : a.time - b.time = 0
  · have he : a.time = b.time := by linarith
    rw [if_pos h]
    constructor
    · intro hle
      refine Or.inr ⟨he, ?_⟩
      have : (priorityOrder a.type - priorityOrder b.type : ℤ) ≤ 0 := by exact_mod_cast hle
      omega
    · rintro (hlt | ⟨-, hp⟩)
      · exact absurd hlt (by simp [he])
      · have : (priorityOrder a.type - priorityOrder b.type : ℤ) ≤ 0 := by omega
        exact_mod_cast this
  · rw [if_neg h]
    constructor
    · intro hle
      exact Or.inl (lt_of_le_of_ne (by linarith) fun he => h (by rw [he]; ring))
    · rintro (hlt | ⟨he, -⟩)
      · linarith
      · exact absurd he fun hee => h (by rw [hee]; ring)

instance : IsTotal Stamp timeLE :=
  ⟨fun a b => by
    rw [timeLE_iff, timeLE_iff]
    exact le_total a.time b.time⟩

instance : IsTrans Stamp timeLE :=
  ⟨fun a b c hab hbc => by
    rw [timeLE_iff] at hab hbc ⊢
    exact hab.trans hbc⟩

instance : IsTotal Stamp stampLE :=
  ⟨fun a b => by
    rcases lt_trichotomy a.time b.time with h | h | h
    · exact Or.inl ((stampLE_iff a b).mpr (Or.inl h))
    · rcases le_total (priorityOrder a.type) (priorityOrder b.type) with hp | hp
      · exact Or.inl ((stampLE_iff a b).mpr (Or.inr ⟨h, hp⟩))
      · exact Or.inr ((stampLE_iff b a).mpr (Or.inr ⟨h.symm, hp⟩))
    · exact Or.inr ((stampLE_iff b a).mpr (Or.inl h))⟩

instance : IsTrans Stamp stampLE :=
  ⟨fun a b c hab hbc => by
    rw [stampLE_iff] at hab hbc ⊢
    rcases hab with h1 | ⟨e1, p1⟩ <;> rcases hbc with h2 | ⟨e2, p2⟩
    · exact Or.inl (h1.trans h2)
    · exact Or.inl (e2 ▸ h1)
    · exact Or.inl (e1 ▸ h2)
    · exact Or.inr ⟨e1.trans e2, p1.trans p2⟩⟩

/-- Output of the two sorts is sorted for the tie-break comparator. -/
theorem sortPass_sorted (l : List Stamp) : List.Sorted stampLE (sortPass l) :=
  List.sorted_insertionSort stampLE (List.insertionSort timeLE l)

/-- A `stampLE`-sorted list has nondecreasing times. -/
theorem sorted_time_of_sorted {l : List Stamp} (h : List.Sorted stampLE l) :
    l.Pairwise fun x y => x.time ≤ y.time :=
  h.imp fun hxy =>
    ((stampLE_iff _ _).mp hxy).elim le_of_lt fun he => le_of_eq he.1

theorem far_of_not_close {seen : List ℚ} {t : ℚ}
    (h : isCloseToSeen seen t = false) : ∀ u ∈ seen, 1 ≤ jsAbs (u - t) := by
  intro u hu
  have := List.any_eq_false.mp h u hu
  simp only [decide_eq_true_eq] at this
  linarith [not_lt.mp this]

theorem not_close_of_far {seen : List ℚ} {t : ℚ}
    (h : ∀ u ∈ seen, 1 ≤ jsAbs (u - t)) : isCloseToSeen seen t = false := by
  apply List.any_eq_false.mpr
  intro u hu
  simp only [decide_eq_true_eq]
  exact not_lt.mpr (h u hu)

/-- The sweep of a time-sorted list yields separated output, given a
separated accumulator lying entirely below the input. -/
theorem dedupGo_sep (l : List Stamp) :
    ∀ acc : List Stamp, Sep acc →
      l.Pairwise (fun x y => x.time ≤ y.time) →
      (∀ x ∈ acc, ∀ y ∈ l, x.time ≤ y.time) →
      Sep (dedupGo acc (acc.map Stamp.time) l) := by
  induction l with
  | nil => intro acc hacc _ _; simpa [dedupGo] using hacc
  | cons s rest ih =>
    intro acc hacc hsort hcross
    rcases List.pairwise_cons.mp hsort with ⟨hhead, htail⟩
    rw [dedupGo]
    by_cases hc : isCloseToSeen (acc.map Stamp.time) s.time
    · rw [if_pos hc]
      exact ih acc hacc htail fun x hx y hy => hcross x hx y (List.mem_cons_of_mem _ hy)
    · rw [if_neg hc]
      have hc' : isCloseToSeen (acc.map Stamp.time) s.time = false := by
        simpa using hc
      have hsep : ∀ x ∈ acc, x.time + 1 ≤ s.time := fun x hx =>
        add_one_le_of_far (hcross x hx s (List.mem_cons_self s rest))
          (far_of_not_close hc' x.time (List.mem_map_of_mem Stamp.time hx))
      have hacc' : Sep (acc ++ [s]) := by
        unfold Sep
        rw [List.pairwise_append]
        refine ⟨hacc, List.pairwise_singleton _ s, ?_⟩
        intro x hx y hy
        rcases List.mem_singleton.mp hy with rfl
        exact hsep x hx
      have hmap : (acc ++ [s]).map Stamp.time = acc.map Stamp.time ++ [s.time] := by simp
      rw [← hmap]
      refine ih (acc ++ [s]) hacc' htail ?_
      intro x hx y hy
      rcases List.mem_append.mp hx with hxa | hxs
      · exact hcross x hxa y (List.mem_cons_of_mem _ hy)
      · rcases List.mem_singleton.mp hxs with rfl
        exact hhead y hy

/-- Every merge output is separated. -/
theorem merge_sep (l : List Stamp) : Sep (merge l) := by
  have h := dedupGo_sep (sortPass l) [] List.Pairwise.nil
    (sorted_time_of_sorted (sortPass_sorted l)) (by simp)
  simpa [merge, dedupSweep] using h

/-- The sweep leaves a separated list unchanged. -/
theorem dedupGo_of_sep (l : List Stamp) :
    ∀ acc : List Stamp, Sep l →
      (∀ x ∈ acc, ∀ y ∈ l, x.time + 1 ≤ y.time) →
      dedupGo acc (acc.map Stamp.time) l = acc ++ l := by
  induction l with
  | nil => intro acc _ _; simp [dedupGo]
  | cons s rest ih =>
    intro acc hsep hcross
    rcases List.pairwise_cons.mp hsep with ⟨hhead, htail⟩
    have hc : isCloseToSeen (acc.map Stamp.time) s.time = false := by
      apply not_close_of_far
      intro u hu
      rcases List.mem_map.mp hu with ⟨x, hx, rfl⟩
      exact far_of_add_one_le (hcross x hx s (List.mem_cons_self s rest))
    rw [dedupGo, if_neg (by simp [hc])]
    have hmap : (acc ++ [s]).map Stamp.time = acc.map Stamp.time ++ [s.time] := by simp
    rw [← hmap]
    have hrec := ih (acc ++ [s]) htail ?hcross
    · rw [hrec, List.append_assoc]
      rfl
    case hcross =>
      intro x hx y hy
      rcases List.mem_append.mp hx with hxa | hxs
      · exact hcross x hxa y (List.mem_cons_of_mem _ hy)
      · rcases List.mem_singleton.mp hxs with rfl
        exact hhead y hy

/-- A separated list is already sorted for both comparators, so both
sort passes leave it unchanged. -/
theorem sortPass_of_sep {l : List Stamp} (h : Sep l) : sortPass l = l := by
  have h1 : List.Sorted timeLE l :=
    h.imp fun hxy => (timeLE_iff _ _).mpr (by linarith)
  have h2 : List.Sorted stampLE l :=
    h.imp fun hxy => (stampLE_iff _ _).mpr (Or.inl (by linarith))
  unfold sortPass
  rw [h1.insertionSort_eq, h2.insertionSort_eq]

end SrcApp

/-- C2: the cross-source merge of `src/src/App.jsx` (sort by time with
the priority tie-break at equal times, then drop any candidate within
one second of a previously kept one) is idempotent: merging an
already-merged candidate list changes nothing. -/
theorem srcapp_merge_idempotent (X : List SrcApp.Stamp) :
    SrcApp.merge (SrcApp.merge X) = SrcApp.merge X := by
  have hsep := SrcApp.merge_sep X
  have h1 : SrcApp.merge (SrcApp.merge X)
      = SrcApp.dedupSweep (SrcApp.merge X) := by
    conv_lhs => rw [SrcApp.merge]
    rw [SrcApp.sortPass_of_sep hsep]
  rw [h1]
  have h2 := SrcApp.dedupGo_of_sep (SrcApp.merge X) [] hsep (by simp)
  simpa [SrcApp.dedupSweep] using h2

/-- C1 counterexample: merging the two candidates audio at t = 100 and
priorityComment at t = 100.5 with the frontend merge cited by the claim
keeps the single audio marker, not the priorityComment one: the 0.5 s
time difference exceeds the 0.1 s tie tolerance of the sort, so the
earlier audio candidate sorts first and the sweep drops the
priority-comment candidate. -/
theorem fapp_merge_keeps_audio_at_half_second :
    FApp.merge [⟨201/2, .priority⟩, ⟨100, .audio⟩] = [⟨100, FType.audio⟩] ∧
    FType.audio ≠ FType.priority := by
  constructor
  · norm_num [FApp.merge, FApp.dedupSweep, FApp.dedupGo, FApp.isCloseToSeen, FApp.stampLE,
      FApp.compareStamps, FApp.priorityOrder, jsAbs, List.insertionSort, List.orderedInsert]
  · decide

/-- C1 amended: in the cited merge the priority rank
priorityComment(0) < mostReplayed(1) < comment(2) < audio(3) decides
only between candidates whose times lie within the sort's 0.1 s tie
tolerance; otherwise the earliest candidate in the 1 s window survives
the sweep. Audio at t = 100 with priorityComment at t = 100.5 therefore
merges to the single audio marker, while the same pair at exactly
t = 100 merges to the single priorityComment marker. -/
theorem fapp_merge_priority_tie_only :
    FApp.merge [⟨201/2, .priority⟩, ⟨100, .audio⟩] = [⟨100, FType.audio⟩] ∧
    FApp.merge [⟨100, .priority⟩, ⟨100, .audio⟩] = [⟨100, FType.priority⟩] ∧
    SrcApp.merge [⟨201/2, .priority⟩, ⟨100, .audio⟩] = [⟨100, SrcType.audio⟩] := by
  refine ⟨?_, ?_, ?_⟩
  · norm_num [FApp.merge, FApp.dedupSweep, FApp.dedupGo, FApp.isCloseToSeen, FApp.stampLE,
      FApp.compareStamps, FApp.priorityOrder, jsAbs, List.insertionSort, List.orderedInsert]
  · norm_num [FApp.merge, FApp.dedupSweep, FApp.dedupGo, FApp.isCloseToSeen, FApp.stampLE,
      FApp.compareStamps, FApp.priorityOrder, jsAbs, List.insertionSort, List.orderedInsert]
  · norm_num [SrcApp.merge, SrcApp.sortPass, SrcApp.dedupSweep, SrcApp.dedupGo,
      SrcApp.isCloseToSeen, SrcApp.stampLE, SrcApp.timeLE, SrcApp.compareStamps,
      SrcApp.compareTime, SrcApp.priorityOrder, jsAbs, List.insertionSort, List.orderedInsert]

/-- C3: the proximity clustering of `src/src/VideoComments.jsx` with its
20-second window clusters [5, 23, 9] into the single group led by 5
containing all three values, and clusters [5, 23, 50] into the group
led by 5 with members 5 and 23 plus the singleton group led by 50. -/
theorem vc_clustering_concrete :
    VC.groupLeadersCounts [5, 23, 9] = ([(5, 5), (9, 5), (23, 5)], [(5, 3)]) ∧
    VC.groupLeadersCounts [5, 23, 50] = ([(5, 5), (23, 5), (50, 50)], [(5, 2), (50, 1)]) := by
  constructor <;>
    norm_num [VC.groupLeadersCounts, VC.sortedSeconds, VC.uniqueList, VC.insertUniqueQ,
      VC.groupStep, VC.findLeader, VC.bumpCount, jsAbs, List.insertionSort,
      List.orderedInsert, List.foldl]

/-- C9 counterexample: the cited `handleTimelineClick` does not clamp:
with the widget box starting at x = 0 with width 100, duration 200 and
clientX = -50 (left of the box), the computed seek time is -100, which
lies outside [0, duration]. -/
theorem timeline_click_unclamped_example :
    Timeline.handleTimelineClickTime (-50) 0 100 200 = -100 ∧
    ¬ (0 ≤ Timeline.handleTimelineClickTime (-50) 0 100 200) := by
  constructor <;> norm_num [Timeline.handleTimelineClickTime]

/-- C9 amended: the cited `src/src/VideoPlayer.jsx` handler computes the
raw (unclamped) fraction times the duration, so the seek time lies in
[0, duration] only when the pointer is inside the widget's box; the
`VideoPlayer` variant of `src/unnamed/part_000` clamps the fraction to
[0, 1], its seek time always lies in [0, duration], and the two handlers
agree whenever the pointer x-coordinate is within the box. -/
theorem timeline_clamped_variant_bounds (clientX rectLeft rectWidth duration : ℚ)
    (hw : 0 < rectWidth) (hd : 0 ≤ duration) :
    (0 ≤ Timeline.handleTimelineInteractionTime clientX rectLeft rectWidth duration ∧
      Timeline.handleTimelineInteractionTime clientX rectLeft rectWidth duration ≤ duration) ∧
    (rectLeft ≤ clientX → clientX ≤ rectLeft + rectWidth →
      Timeline.handleTimelineClickTime clientX rectLeft rectWidth duration
        = Timeline.handleTimelineInteractionTime clientX rectLeft rectWidth duration) := by
  unfold Timeline.handleTimelineClickTime Timeline.handleTimelineInteractionTime
  constructor
  · constructor
    · exact mul_nonneg (le_max_left 0 _) hd
    · have h1 : max 0 (min 1 ((clientX - rectLeft) / rectWidth)) ≤ 1 :=
        max_le (by norm_num) (min_le_left 1 _)
      calc max 0 (min 1 ((clientX - rectLeft) / rectWidth)) * duration
          ≤ 1 * duration := mul_le_mul_of_nonneg_right h1 hd
        _ = duration := one_mul duration
  · intro h1 h2
    have hf0 : 0 ≤ (clientX - rectLeft) / rectWidth :=
      div_nonneg (by linarith) hw.le
    have hf1 : (clientX - rectLeft) / rectWidth ≤ 1 := by
      rw [div_le_one hw]
      linarith
    rw [min_eq_right hf1, max_eq_right hf0]

/-- Witness for the amended C9 statement at clientX = 25, box [0, 100],
duration 200. -/
theorem timeline_clamped_variant_bounds_witness :
    ((0 : ℚ) < 100 ∧ (0 : ℚ) ≤ 200) ∧
    (0 ≤ Timeline.handleTimelineInteractionTime 25 0 100 200 ∧
      Timeline.handleTimelineInteractionTime 25 0 100 200 ≤ 200) ∧
    Timeline.handleTimelineClickTime 25 0 100 200
      = Timeline.handleTimelineInteractionTime 25 0 100 200 := by
  have h := timeline_clamped_variant_bounds 25 0 100 200 (by norm_num) (by norm_num)
  exact ⟨⟨by norm_num, by norm_num⟩, h.1, h.2 (by norm_num) (by norm_num)⟩

/-- C6 counterexample: in the interleaving submit(urlA); submit(urlB);
late success of the urlA polling loop with highlights [42], the final
state still belongs to urlB but its audio-timestamp list has been
overwritten by the stale urlA result — the code has no cancellation or
job-identity guard, so the late response mutates state associated with
urlB. -/
theorem stale_poll_overwrites_state :
    (SrcApp.runApp [SrcApp.AppEvent.submit ['a'], SrcApp.AppEvent.submit ['b'],
      SrcApp.AppEvent.latePollSuccess ['a'] [42]]).videoUrl = ['b'] ∧
    (SrcApp.runApp [SrcApp.AppEvent.submit ['a'], SrcApp.AppEvent.submit ['b'],
      SrcApp.AppEvent.latePollSuccess ['a'] [42]]).audioTimestamps = [42] ∧
    ([42] : List ℚ) ≠ [] := by
  refine ⟨rfl, rfl, by simp⟩

/-- C6 amended: the controller performs no cancellation: there is no
comparison of a callback's job URL against the active job, so after
submit(urlB) a late success response from the urlA job always overwrites
the audio-timestamp slice of the state now associated with urlB,
whatever the URLs and payload are; the only clearing happens at
submission time. -/
theorem stale_poll_unguarded (urlA urlB : List Char) (hs : List ℚ) :
    (SrcApp.runApp [SrcApp.AppEvent.submit urlA, SrcApp.AppEvent.submit urlB,
      SrcApp.AppEvent.latePollSuccess urlA hs]).videoUrl = urlB ∧
    (SrcApp.runApp [SrcApp.AppEvent.submit urlA, SrcApp.AppEvent.submit urlB,
      SrcApp.AppEvent.latePollSuccess urlA hs]).audioTimestamps = hs ∧
    (SrcApp.runApp [SrcApp.AppEvent.submit urlA, SrcApp.AppEvent.submit urlB]).audioTimestamps = [] := by
  exact ⟨rfl, rfl, rfl⟩

namespace Poll

theorem applyMsg_attempts (s : PollState) (m : PollMsg) :
    (applyMsg s m).attempts = s.attempts := by
  cases m <;> rfl

theorem applyMsg_nonTerminal {s : PollState} {m : PollMsg} (h : nonTerminal m) :
    (applyMsg s m).polling = s.polling ∧ (applyMsg s m).audio = s.audio := by
  rcases h with rfl | rfl | rfl <;> exact ⟨rfl, rfl⟩

/-- The loop can only increase the attempt counter by its fuel. -/
theorem pollLoop_attempts_le (responses : ℕ → PollMsg) :
    ∀ (fuel : ℕ) (s : PollState),
      (pollLoop responses fuel s).attempts ≤ s.attempts + fuel := by
  intro fuel
  induction fuel with
  | zero => intro s; simp [pollLoop]
  | succ n ih =>
    intro s
    rw [pollLoop]
    by_cases h : s.polling ∧ s.attempts < maxAttempts
    · rw [if_pos h]
      have hh := ih (applyMsg { s with attempts := s.attempts + 1 } (responses s.attempts))
      rw [applyMsg_attempts] at hh
      have hr : ({ s with attempts := s.attempts + 1 } : PollState).attempts
          = s.attempts + 1 := rfl
      rw [hr] at hh
      omega
    · rw [if_neg h]
      omega

/-- A run whose visible responses are all non-terminal polls to the
bound and stores nothing. -/
theorem pollLoop_all_nonTerminal (responses : ℕ → PollMsg) :
    ∀ (fuel : ℕ) (s : PollState),
      s.polling = true → s.audio = none → s.attempts + fuel = maxAttempts →
      (∀ k, s.attempts ≤ k → k < maxAttempts → nonTerminal (responses k)) →
      (pollLoop responses fuel s).polling = true ∧
      (pollLoop responses fuel s).audio = none ∧
      (pollLoop responses fuel s).attempts = maxAttempts := by
  intro fuel
  induction fuel with
  | zero =>
    intro s hp ha hb _
    simp only [pollLoop]
    exact ⟨hp, ha, by omega⟩
  | succ n ih =>
    intro s hp ha hb hmsg
    have hlt : s.attempts < maxAttempts := by omega
    rw [pollLoop, if_pos ⟨hp, hlt⟩]
    have hm : nonTerminal (responses s.attempts) := hmsg s.attempts le_rfl hlt
    have heff := applyMsg_nonTerminal
      (s := { s with attempts := s.attempts + 1 }) (m := responses s.attempts) hm
    have hatt : (applyMsg { s with attempts := s.attempts + 1 }
        (responses s.attempts)).attempts = s.attempts + 1 := by
      rw [applyMsg_attempts]
    refine ih _ ?_ ?_ ?_ ?_
    · rw [heff.1]; exact hp
    · rw [heff.2]; exact ha
    · rw [hatt]; omega
    · intro k hk hkk
      rw [hatt] at hk
      exact hmsg k (by omega) hkk

end Poll

/-- C8: the polling loop of `processAudioAnalysis` performs at most 90
poll attempts; and for every run in which all 90 responses are
non-terminal (`processing`, `not_started` or an unknown status), the job
ends with the timeout surfaced as a user-visible error and with no
result stored. -/
theorem polling_bounded_timeout (responses : ℕ → Poll.PollMsg) :
    (Poll.runPolling responses).attempts ≤ Poll.maxAttempts ∧
    ((∀ k < Poll.maxAttempts, Poll.nonTerminal (responses k)) →
      (Poll.runPolling responses).timedOut = true ∧
      (Poll.runPolling responses).errorShown = true ∧
      (Poll.runPolling responses).audio = none) := by
  constructor
  · have h := Poll.pollLoop_attempts_le responses Poll.maxAttempts Poll.initialPollState
    simp only [Poll.runPolling]
    split <;> simpa [Poll.initialPollState] using h
  · intro hall
    have h := Poll.pollLoop_all_nonTerminal responses Poll.maxAttempts Poll.initialPollState
      rfl rfl (by simp [Poll.initialPollState]) (fun k _ hk => hall k hk)
    simp only [Poll.runPolling]
    rw [if_pos ⟨le_of_eq h.2.2.symm, h.1⟩]
    exact ⟨rfl, rfl, h.2.1⟩

/-- Witness for C8: with every response `processing`, the run times out
with the error surfaced and no result, within the attempt bound. -/
theorem polling_bounded_timeout_witness :
    (Poll.runPolling fun _ => Poll.PollMsg.processing).attempts ≤ Poll.maxAttempts ∧
    (Poll.runPolling fun _ => Poll.PollMsg.processing).timedOut = true ∧
    (Poll.runPolling fun _ => Poll.PollMsg.processing).errorShown = true ∧
    (Poll.runPolling fun _ => Poll.PollMsg.processing).audio = none := by
  have h := polling_bounded_timeout fun _ => Poll.PollMsg.processing
  exact ⟨h.1, h.2 fun k _ => Or.inr (Or.inl rfl)⟩

/-- C7 counterexample: when the job receives two `not_started` poll
responses before succeeding, the loop re-submits the initial request
twice — once per `not_started` response — not exactly once over the
job's lifetime. -/
theorem poll_resubmits_twice :
    (Poll.runPolling twoNotStartedResponses).resubmits = 2 ∧ (2 : ℕ) ≠ 1 := by
  constructor
  · decide
  · decide

namespace Poll

theorem applyMsg_resubmits (s : PollState) (m : PollMsg) :
    (applyMsg s m).resubmits
      = s.resubmits + (if m = PollMsg.notStarted then 1 else 0) := by
  cases m <;> simp [applyMsg]

/-- Invariant: the re-submission counter equals the number of
`not_started` responses among the polls performed so far. -/
theorem pollLoop_resubmits (responses : ℕ → PollMsg) :
    ∀ (fuel : ℕ) (s : PollState),
      s.resubmits = ((List.range s.attempts).countP
        fun k => decide (responses k = PollMsg.notStarted)) →
      (pollLoop responses fuel s).resubmits
        = ((List.range (pollLoop responses fuel s).attempts).countP
            fun k => decide (responses k = PollMsg.notStarted)) := by
  intro fuel
  induction fuel with
  | zero => intro s h; simpa [pollLoop] using h
  | succ n ih =>
    intro s h
    rw [pollLoop]
    by_cases hc : s.polling ∧ s.attempts < maxAttempts
    · rw [if_pos hc]
      apply ih
      have hatt : (applyMsg { s with attempts := s.attempts + 1 }
          (responses s.attempts)).attempts = s.attempts + 1 := by
        rw [applyMsg_attempts]
      rw [hatt, applyMsg_resubmits, List.range_succ, List.countP_append]
      have hres : ({ s with attempts := s.attempts + 1 } : PollState).resubmits
          = s.resubmits := rfl
      rw [hres, h]
      by_cases hmsg : responses s.attempts = PollMsg.notStarted <;>
        simp [List.countP_cons, hmsg]
    · rw [if_neg hc]
      exact h

end Poll

/-- C7 amended: a `not_started` poll response triggers one re-submission
of the initial analysis request each time it occurs, so over a job's
lifetime the number of re-submissions equals the number of `not_started`
responses among the polls performed (bounded only by the 90-attempt
cap), not exactly one; and the attempt counter is never reset — it keeps
counting every poll performed. -/
theorem poll_resubmits_per_notStarted (responses : ℕ → Poll.PollMsg) :
    (Poll.runPolling responses).resubmits
      = ((List.range (Poll.runPolling responses).attempts).countP
          fun k => decide (responses k = Poll.PollMsg.notStarted)) := by
  have h := Poll.pollLoop_resubmits responses Poll.maxAttempts Poll.initialPollState
    (by simp [Poll.initialPollState])
  simp only [Poll.runPolling]
  split <;> simpa using h

namespace Codec

theorem digit_cases {c : Char} (h : isDigitC c = true) :
    c = '0' ∨ c = '1' ∨ c = '2' ∨ c = '3' ∨ c = '4' ∨ c = '5' ∨
      c = '6' ∨ c = '7' ∨ c = '8' ∨ c = '9' := by
  simpa [isDigitC, digitChars] using h

theorem digitChar_isDigit {d : ℕ} (h : d < 10) : isDigitC (Nat.digitChar d) = true := by
  interval_cases d <;> decide

theorem digitVal_digitChar {d : ℕ} (h : d < 10) : digitVal (Nat.digitChar d) = d := by
  interval_cases d <;> decide

theorem digit_not_ws {c : Char} (h : isDigitC c = true) : isWSChar c = false := by
  rcases digit_cases h with rfl | rfl | rfl | rfl | rfl | rfl | rfl | rfl | rfl | rfl <;> decide

theorem digit_ne_colon {c : Char} (h : isDigitC c = true) : c ≠ ':' := by
  rcases digit_cases h with rfl | rfl | rfl | rfl | rfl | rfl | rfl | rfl | rfl | rfl <;> decide

theorem digit_ne_minus {c : Char} (h : isDigitC c = true) : c ≠ '-' := by
  rcases digit_cases h with rfl | rfl | rfl | rfl | rfl | rfl | rfl | rfl | rfl | rfl <;> decide

theorem digit_ne_plus {c : Char} (h : isDigitC c = true) : c ≠ '+' := by
  rcases digit_cases h with rfl | rfl | rfl | rfl | rfl | rfl | rfl | rfl | rfl | rfl <;> decide

theorem dropWhile_of_all_false {p : Char → Bool} {l : List Char}
    (h : ∀ c ∈ l, p c = false) : l.dropWhile p = l := by
  cases l with
  | nil => rfl
  | cons c t => simp [List.dropWhile_cons, h c (List.mem_cons_self c t)]

theorem takeWhile_of_all_true {p : Char → Bool} {l : List Char}
    (h : ∀ c ∈ l, p c = true) : l.takeWhile p = l := by
  induction l with
  | nil => rfl
  | cons c t ih =>
    simp [List.takeWhile_cons, h c (List.mem_cons_self c t),
      ih fun x hx => h x (List.mem_cons_of_mem c hx)]

theorem dropWhile_of_all_true {p : Char → Bool} {l : List Char}
    (h : ∀ c ∈ l, p c = true) : l.dropWhile p = [] := by
  induction l with
  | nil => rfl
  | cons c t ih =>
    simp [List.dropWhile_cons, h c (List.mem_cons_self c t),
      ih fun x hx => h x (List.mem_cons_of_mem c hx)]

theorem trimWS_of_digits {l : List Char} (h : ∀ c ∈ l, isDigitC c = true) :
    trimWS l = l := by
  unfold trimWS
  rw [dropWhile_of_all_false fun c hc => digit_not_ws (h c hc)]
  rw [dropWhile_of_all_false fun c hc =>
    digit_not_ws (h c (List.mem_reverse.mp hc))]
  exact List.reverse_reverse l

theorem decDigitsVal_append_digit (ds : List Char) (c : Char) :
    decDigitsVal (ds ++ [c]) = 10 * decDigitsVal ds + digitVal c := by
  unfold decDigitsVal
  rw [List.foldl_append]
  rfl

theorem decDigitsVal_cons_zero (ds : List Char) :
    decDigitsVal ('0' :: ds) = decDigitsVal ds := by
  unfold decDigitsVal
  rw [List.foldl_cons]
  norm_num [digitVal]

theorem decDigitsVal_replicate_zero (k : ℕ) (ds : List Char) :
    decDigitsVal (List.replicate k '0' ++ ds) = decDigitsVal ds := by
  induction k with
  | zero => rfl
  | succ n ih => rw [List.replicate_succ, List.cons_append, decDigitsVal_cons_zero, ih]

theorem decDigitsVal_digits_aux :
    ∀ ds : List ℕ, (∀ d ∈ ds, d < 10) →
      decDigitsVal ((ds.map Nat.digitChar).reverse) = Nat.ofDigits 10 ds := by
  intro ds
  induction ds with
  | nil => intro _; rfl
  | cons d t ih =>
    intro h
    rw [List.map_cons, List.reverse_cons, decDigitsVal_append_digit,
      ih fun x hx => h x (List.mem_cons_of_mem d hx),
      digitVal_digitChar (h d (List.mem_cons_self d t)), Nat.ofDigits_cons]
    ring

theorem decDigitsVal_natToChars (n : ℕ) : decDigitsVal (natToChars n) = n := by
  unfold natToChars
  by_cases h : n = 0
  · subst h
    decide
  · rw [if_neg h,
      decDigitsVal_digits_aux _ fun d hd => Nat.digits_lt_base (by norm_num) hd,
      Nat.ofDigits_digits]

theorem natToChars_digits (n : ℕ) : ∀ c ∈ natToChars n, isDigitC c = true := by
  unfold natToChars
  by_cases h : n = 0
  · subst h
    intro c hc
    simp at hc
    subst hc
    decide
  · rw [if_neg h]
    intro c hc
    rw [List.mem_reverse, List.mem_map] at hc
    obtain ⟨d, hd, rfl⟩ := hc
    exact digitChar_isDigit (Nat.digits_lt_base (by norm_num) hd)

theorem natToChars_ne_nil (n : ℕ) : natToChars n ≠ [] := by
  unfold natToChars
  by_cases h : n = 0
  · simp [h]
  · rw [if_neg h]
    intro hc
    have hd : Nat.digits 10 n = [] := by
      have := congrArg List.length hc
      simpa using this
    exact h (by simpa using Nat.digits_eq_nil_iff_eq_zero.mp hd)

theorem padTwo_digits {ds : List Char} (h : ∀ c ∈ ds, isDigitC c = true) :
    ∀ c ∈ padTwo ds, isDigitC c = true := by
  unfold padTwo
  split
  · intro c hc
    rcases List.mem_append.mp hc with hr | hd
    · rcases List.eq_of_mem_replicate hr with rfl
      decide
    · exact h c hd
  · exact h

theorem padTwo_val (ds : List Char) : decDigitsVal (padTwo ds) = decDigitsVal ds := by
  unfold padTwo
  split
  · exact decDigitsVal_replicate_zero _ ds
  · rfl

theorem padTwo_ne_nil {ds : List Char} (h : ds ≠ []) : padTwo ds ≠ [] := by
  unfold padTwo
  split
  · intro hc
    rcases List.append_eq_nil.mp hc with ⟨-, h2⟩
    exact h h2
  · exact h

theorem splitOnChar_no_sep {sep : Char} {l : List Char}
    (h : ∀ c ∈ l, c ≠ sep) : splitOnChar sep l = [l] := by
  induction l with
  | nil => rfl
  | cons c t ih =>
    have hct := ih fun x hx => h x (List.mem_cons_of_mem c hx)
    simp [splitOnChar, hct, h c (List.mem_cons_self c t)]

theorem splitOnChar_append {sep : Char} {A R : List Char}
    (h : ∀ c ∈ A, c ≠ sep) :
    splitOnChar sep (A ++ sep :: R) = A :: splitOnChar sep R := by
  induction A with
  | nil => simp [splitOnChar]
  | cons c t ih =>
    have hct := ih fun x hx => h x (List.mem_cons_of_mem c hx)
    simp [splitOnChar, hct, h c (List.mem_cons_self c t)]

end Codec

namespace Codec

theorem parseMantissa_digits {ds : List Char} (hne : ds ≠ [])
    (h : ∀ c ∈ ds, isDigitC c = true) :
    parseMantissa ds = some ((decDigitsVal ds : ℚ), []) := by
  obtain ⟨c, t, rfl⟩ := List.exists_cons_of_ne_nil hne
  simp only [parseMantissa]
  rw [takeWhile_of_all_true h, dropWhile_of_all_true h]
  rfl

theorem parseUnsignedNum_digits {ds : List Char} (hne : ds ≠ [])
    (h : ∀ c ∈ ds, isDigitC c = true) :
    parseUnsignedNum ds = some (decDigitsVal ds : ℚ) := by
  unfold parseUnsignedNum
  rw [parseMantissa_digits hne h]

theorem jsNumber_digits {ds : List Char} (hne : ds ≠ [])
    (h : ∀ c ∈ ds, isDigitC c = true) :
    jsNumber ds = some (decDigitsVal ds : ℚ) := by
  obtain ⟨c, t, rfl⟩ := List.exists_cons_of_ne_nil hne
  have hc := h c (List.mem_cons_self c t)
  unfold jsNumber
  rw [trimWS_of_digits h]
  dsimp only
  rw [if_neg (digit_ne_minus hc), if_neg (digit_ne_plus hc)]
  exact parseUnsignedNum_digits hne h

/-- Parsing an `A:B` string of digit groups. -/
theorem vp_parse_two {A B : List Char} (hAne : A ≠ []) (hBne : B ≠ [])
    (hA : ∀ c ∈ A, isDigitC c = true) (hB : ∀ c ∈ B, isDigitC c = true) :
    vpTimestampToSeconds (A ++ ':' :: B)
      = some ((decDigitsVal A : ℚ) * 60 + (decDigitsVal B : ℚ)) := by
  unfold vpTimestampToSeconds
  rw [splitOnChar_append fun c hc => digit_ne_colon (hA c hc),
    splitOnChar_no_sep fun c hc => digit_ne_colon (hB c hc)]
  rw [List.map_cons, List.map_cons, List.map_nil,
    jsNumber_digits hAne hA, jsNumber_digits hBne hB]
  rfl

/-- Parsing an `A:B:C` string of digit groups. -/
theorem vp_parse_three {A B C : List Char} (hAne : A ≠ []) (hBne : B ≠ [])
    (hCne : C ≠ [])
    (hA : ∀ c ∈ A, isDigitC c = true) (hB : ∀ c ∈ B, isDigitC c = true)
    (hC : ∀ c ∈ C, isDigitC c = true) :
    vpTimestampToSeconds (A ++ ':' :: (B ++ ':' :: C))
      = some ((decDigitsVal A : ℚ) * 3600 + (decDigitsVal B : ℚ) * 60
          + (decDigitsVal C : ℚ)) := by
  unfold vpTimestampToSeconds
  rw [splitOnChar_append fun c hc => digit_ne_colon (hA c hc),
    splitOnChar_append fun c hc => digit_ne_colon (hB c hc),
    splitOnChar_no_sep fun c hc => digit_ne_colon (hC c hc)]
  rw [List.map_cons, List.map_cons, List.map_cons, List.map_nil,
    jsNumber_digits hAne hA, jsNumber_digits hBne hB, jsNumber_digits hCne hC]
  rfl

theorem intToChars_of_nonneg {i : ℤ} (h : 0 ≤ i) :
    intToChars i = natToChars i.toNat := by
  unfold intToChars
  rw [if_neg (not_lt.mpr h)]

end Codec

/-- C4: for every rational s ≥ 0,
`timestampToSeconds(secondsToTimestamp(s))` recovers `⌊s⌋`:
`secondsToTimestamp` floors to whole hour/minute/second fields and
formats M:SS below one hour and H:MM:SS at or above one hour, and the
`VideoPlayer` parser maps the digit groups back to
`h*3600 + m*60 + sec = ⌊s⌋`. -/
theorem codec_roundtrip_floor (s : ℚ) (hs : 0 ≤ s) :
    Codec.vpTimestampToSeconds (Codec.secondsToTimestamp s)
      = some ((⌊s⌋ : ℤ) : ℚ) := by
  have htr1 : Codec.ratTrunc (s / 3600) = ⌊s / 3600⌋ := by
    unfold Codec.ratTrunc
    rw [if_neg (not_lt.mpr (by positivity))]
  have htr2 : Codec.ratTrunc (s / 60) = ⌊s / 60⌋ := by
    unfold Codec.ratTrunc
    rw [if_neg (not_lt.mpr (by positivity))]
  have hmod3600 : Codec.jsMod s 3600 = s - 3600 * (⌊s / 3600⌋ : ℤ) := by
    unfold Codec.jsMod
    rw [htr1]
  have hmod60 : Codec.jsMod s 60 = s - 60 * (⌊s / 60⌋ : ℤ) := by
    unfold Codec.jsMod
    rw [htr2]
  have hmin : ⌊Codec.jsMod s 3600 / 60⌋ = ⌊s / 60⌋ - 60 * ⌊s / 3600⌋ := by
    rw [hmod3600]
    have he : (s - 3600 * (⌊s / 3600⌋ : ℤ)) / 60
        = s / 60 - ((60 * ⌊s / 3600⌋ : ℤ) : ℚ) := by
      push_cast
      ring
    rw [he, Int.floor_sub_int]
  have hsec : ⌊Codec.jsMod s 60⌋ = ⌊s⌋ - 60 * ⌊s / 60⌋ := by
    rw [hmod60]
    have he : s - 60 * ((⌊s / 60⌋ : ℤ) : ℚ) = s - ((60 * ⌊s / 60⌋ : ℤ) : ℚ) := by
      push_cast
      ring
    rw [he, Int.floor_sub_int]
  have hH0 : 0 ≤ ⌊s / 3600⌋ := Int.floor_nonneg.mpr (by positivity)
  have hfl1 : ((⌊s / 3600⌋ : ℤ) : ℚ) ≤ s / 3600 := Int.floor_le _
  have hfl2 : ((⌊s / 60⌋ : ℤ) : ℚ) ≤ s / 60 := Int.floor_le _
  have hs3600 : s = 3600 * (s / 3600) := by field_simp
  have hs60 : s = 60 * (s / 60) := by field_simp
  have hq60 : 60 * ⌊s / 3600⌋ ≤ ⌊s / 60⌋ := by
    apply Int.le_floor.mpr
    push_cast
    linarith
  have hF60 : 60 * ⌊s / 60⌋ ≤ ⌊s⌋ := by
    apply Int.le_floor.mpr
    push_cast
    linarith
  have hmin0 : 0 ≤ ⌊s / 60⌋ - 60 * ⌊s / 3600⌋ := by omega
  have hsec0 : 0 ≤ ⌊s⌋ - 60 * ⌊s / 60⌋ := by omega
  simp only [Codec.secondsToTimestamp]
  rw [hmin, hsec]
  by_cases hpos : 0 < ⌊s / 3600⌋
  · rw [if_pos hpos]
    rw [Codec.intToChars_of_nonneg hH0,
      Codec.intToChars_of_nonneg hmin0, Codec.intToChars_of_nonneg hsec0]
    rw [Codec.vp_parse_three
      (Codec.natToChars_ne_nil _)
      (Codec.padTwo_ne_nil (Codec.natToChars_ne_nil _))
      (Codec.padTwo_ne_nil (Codec.natToChars_ne_nil _))
      (Codec.natToChars_digits _)
      (Codec.padTwo_digits (Codec.natToChars_digits _))
      (Codec.padTwo_digits (Codec.natToChars_digits _))]
    rw [Codec.padTwo_val, Codec.padTwo_val,
      Codec.decDigitsVal_natToChars, Codec.decDigitsVal_natToChars,
      Codec.decDigitsVal_natToChars]
    have e1 : ((⌊s / 3600⌋.toNat : ℕ) : ℚ) = ((⌊s / 3600⌋ : ℤ) : ℚ) := by
      exact_mod_cast Int.toNat_of_nonneg hH0
    have e2 : (((⌊s / 60⌋ - 60 * ⌊s / 3600⌋).toNat : ℕ) : ℚ)
        = ((⌊s / 60⌋ - 60 * ⌊s / 3600⌋ : ℤ) : ℚ) := by
      exact_mod_cast Int.toNat_of_nonneg hmin0
    have e3 : (((⌊s⌋ - 60 * ⌊s / 60⌋).toNat : ℕ) : ℚ)
        = ((⌊s⌋ - 60 * ⌊s / 60⌋ : ℤ) : ℚ) := by
      exact_mod_cast Int.toNat_of_nonneg hsec0
    rw [e1, e2, e3]
    congr 1
    push_cast
    ring
  · rw [if_neg hpos]
    have hHz : ⌊s / 3600⌋ = 0 := by omega
    rw [Codec.intToChars_of_nonneg hmin0, Codec.intToChars_of_nonneg hsec0]
    rw [Codec.vp_parse_two
      (Codec.natToChars_ne_nil _)
      (Codec.padTwo_ne_nil (Codec.natToChars_ne_nil _))
      (Codec.natToChars_digits _)
      (Codec.padTwo_digits (Codec.natToChars_digits _))]
    rw [Codec.padTwo_val, Codec.decDigitsVal_natToChars, Codec.decDigitsVal_natToChars]
    have e2 : (((⌊s / 60⌋ - 60 * ⌊s / 3600⌋).toNat : ℕ) : ℚ)
        = ((⌊s / 60⌋ - 60 * ⌊s / 3600⌋ : ℤ) : ℚ) := by
      exact_mod_cast Int.toNat_of_nonneg hmin0
    have e3 : (((⌊s⌋ - 60 * ⌊s / 60⌋).toNat : ℕ) : ℚ)
        = ((⌊s⌋ - 60 * ⌊s / 60⌋ : ℤ) : ℚ) := by
      exact_mod_cast Int.toNat_of_nonneg hsec0
    rw [e2, e3, hHz]
    congr 1
    push_cast
    ring

/-- Witness for C4 at s = 3725.5: the rendered timestamp is 1:02:05 and
it parses back to 3725 = ⌊3725.5⌋. -/
theorem codec_roundtrip_floor_witness :
    (0 : ℚ) ≤ 7451 / 2 ∧
    Codec.vpTimestampToSeconds (Codec.secondsToTimestamp (7451 / 2)) = some 3725 := by
  have h := codec_roundtrip_floor (7451 / 2) (by norm_num)
  have hf : (⌊(7451 / 2 : ℚ)⌋ : ℤ) = 3725 := by
    rw [Int.floor_eq_iff]
    norm_num
  refine ⟨by norm_num, ?_⟩
  rw [h, hf]
  norm_num

/-- C5 counterexample: the cited `VideoPlayer` `timestampToSeconds` has
no `isNaN` guard, so on the two-part input "a:b" with non-numeric parts
it returns `NaN` (modelled by `none`) instead of `0` — `NaN` does
propagate out of this version. -/
theorem vp_timestampToSeconds_nan_example :
    Codec.vpTimestampToSeconds ['a', ':', 'b'] = none ∧
    Codec.vcTimestampToSeconds ['a', ':', 'b'] = 0 := by
  constructor
  · decide
  · decide

/-- C5 amended: both `timestampToSeconds` versions are total functions
of the input string, and shapes other than 2 or 3 colon-separated parts
yield 0; but only the `VideoComments` version normalizes non-numeric
parts to 0. The `VideoPlayer` version agrees with it except that it
returns `NaN` (`none`) exactly when the split has 2 or 3 parts and at
least one part is non-numeric; the `VideoComments` result is always the
`VideoPlayer` result with `NaN` replaced by 0. -/
theorem timestampToSeconds_total_amended (s : List Char) :
    Codec.vcTimestampToSeconds s = (Codec.vpTimestampToSeconds s).getD 0 ∧
    (Codec.vpTimestampToSeconds s = none ↔
      (((Codec.splitOnChar ':' s).length = 2 ∨ (Codec.splitOnChar ':' s).length = 3) ∧
        none ∈ (Codec.splitOnChar ':' s).map Codec.jsNumber)) := by
  cases s with
  | nil => decide
  | cons c0 s0 =>
    simp only [Codec.vcTimestampToSeconds, Codec.vpTimestampToSeconds,
      List.isEmpty_cons, Bool.false_eq_true, if_false]
    generalize Codec.splitOnChar ':' (c0 :: s0) = l
    rcases l with _ | ⟨a, _ | ⟨b, _ | ⟨c, _ | ⟨d, t⟩⟩⟩⟩
    · simp
    · rcases ha : Codec.jsNumber a with _ | x <;> simp [ha]
    · rcases ha : Codec.jsNumber a with _ | x <;>
        rcases hb : Codec.jsNumber b with _ | y <;>
        simp [ha, hb]
    · rcases ha : Codec.jsNumber a with _ | x <;>
        rcases hb : Codec.jsNumber b with _ | y <;>
        rcases hc : Codec.jsNumber c with _ | z <;>
        simp [ha, hb, hc]
    · rcases ha : Codec.jsNumber a with _ | x <;>
        rcases hb : Codec.jsNumber b with _ | y <;>
        rcases hc : Codec.jsNumber c with _ | z <;>
        rcases hd : Codec.jsNumber d with _ | w <;>
        simp [ha, hb, hc, hd]

theorem jsAbs_sub_comm (a b : ℚ) : jsAbs (a - b) = jsAbs (b - a) := by
  rw [jsAbs_eq_abs, jsAbs_eq_abs, abs_sub_comm]

theorem fapp_far_of_not_close {seen : List ℚ} {t : ℚ}
    (h : FApp.isCloseToSeen seen t = false) : ∀ u ∈ seen, 1 ≤ jsAbs (u - t) := by
  intro u hu
  have := List.any_eq_false.mp h u hu
  simp only [decide_eq_true_eq] at this
  linarith [not_lt.mp this]

/-- The frontend sweep keeps only stamps at least one second from every
previously kept time, whatever order the sorted list arrives in. -/
theorem fapp_dedupGo_far (l : List FApp.Stamp) :
    ∀ acc : List FApp.Stamp,
      acc.Pairwise (fun x y => 1 ≤ jsAbs (y.time - x.time)) →
      (FApp.dedupGo acc (acc.map FApp.Stamp.time) l).Pairwise
        (fun x y => 1 ≤ jsAbs (y.time - x.time)) := by
  induction l with
  | nil => intro acc hacc; simpa [FApp.dedupGo] using hacc
  | cons s rest ih =>
    intro acc hacc
    rw [FApp.dedupGo]
    by_cases hc : FApp.isCloseToSeen (acc.map FApp.Stamp.time) s.time
    · rw [if_pos hc]
      exact ih acc hacc
    · rw [if_neg hc]
      have hc' : FApp.isCloseToSeen (acc.map FApp.Stamp.time) s.time = false := by
        simpa using hc
      have hacc' : (acc ++ [s]).Pairwise (fun x y => 1 ≤ jsAbs (y.time - x.time)) := by
        rw [List.pairwise_append]
        refine ⟨hacc, List.pairwise_singleton _ s, ?_⟩
        intro x hx y hy
        rcases List.mem_singleton.mp hy with rfl
        rw [jsAbs_sub_comm]
        exact fapp_far_of_not_close hc' x.time (List.mem_map_of_mem FApp.Stamp.time hx)
      have hmap : (acc ++ [s]).map FApp.Stamp.time = acc.map FApp.Stamp.time ++ [s.time] := by
        simp
      rw [← hmap]
      exact ih (acc ++ [s]) hacc'

/-- Any two distinct markers emitted by the frontend merge are at least
one second apart, for every candidate list (all four source types). -/
theorem fapp_merge_far (X : List FApp.Stamp) :
    (FApp.merge X).Pairwise (fun x y => 1 ≤ jsAbs (y.time - x.time)) := by
  have h := fapp_dedupGo_far (List.insertionSort FApp.stampLE X) [] List.Pairwise.nil
  simpa [FApp.merge, FApp.dedupSweep] using h

/-- One sweep step that keeps the head. -/
theorem fapp_dedupGo_keep {acc : List FApp.Stamp} {seen : List ℚ}
    {s : FApp.Stamp} {rest : List FApp.Stamp}
    (h : FApp.isCloseToSeen seen s.time = false) :
    FApp.dedupGo acc seen (s :: rest)
      = FApp.dedupGo (acc ++ [s]) (seen ++ [s.time]) rest := by
  rw [FApp.dedupGo, if_neg (by simp [h])]

/-- One sweep step that drops the head. -/
theorem fapp_dedupGo_drop {acc : List FApp.Stamp} {seen : List ℚ}
    {s : FApp.Stamp} {rest : List FApp.Stamp}
    (h : FApp.isCloseToSeen seen s.time = true) :
    FApp.dedupGo acc seen (s :: rest) = FApp.dedupGo acc seen rest := by
  rw [FApp.dedupGo, if_pos h]

/-- Insertion sort leaves a list unchanged whenever each element is
related to its successor: every insertion stops at the head. -/
theorem insertionSort_eq_of_chain {α : Type} {r : α → α → Prop} [DecidableRel r] :
    ∀ {l : List α}, l.Chain' r → List.insertionSort r l = l := by
  intro l
  induction l with
  | nil => intro _; rfl
  | cons a t ih =>
    intro h
    cases t with
    | nil => rfl
    | cons b t2 =>
      have h1 := (List.chain'_cons.mp h).1
      have h2 := (List.chain'_cons.mp h).2
      rw [List.insertionSort, ih h2, List.orderedInsert, if_pos h1]

set_option maxHeartbeats 1600000 in
/-- C10 counterexample: the frontend merge cited by the claim emits a
marker list that is not ordered by ascending time. On an audio-only
candidate list descending from 10 s in 0.09 s steps, every adjacent
pair ties under the 0.1 s comparator (rank difference 0), the stable
sort leaves the list descending, and the sweep keeps 10 s and then
8.92 s — a two-marker output in descending time order. -/
theorem fapp_merge_descending_example :
    FApp.merge descendingAudioStamps
      = [⟨10, FType.audio⟩, ⟨223/25, FType.audio⟩] ∧
    ¬ (FApp.merge descendingAudioStamps).Pairwise
        (fun x y : FApp.Stamp => x.time < y.time) := by
  have hchain : List.Chain' FApp.stampLE descendingAudioStamps := by
    norm_num [descendingAudioStamps, List.chain'_cons, FApp.stampLE,
      FApp.compareStamps, FApp.priorityOrder, jsAbs]
  have hsort : List.insertionSort FApp.stampLE descendingAudioStamps
      = descendingAudioStamps := insertionSort_eq_of_chain hchain
  have he : FApp.merge descendingAudioStamps
      = [⟨10, FType.audio⟩, ⟨223/25, FType.audio⟩] := by
    rw [FApp.merge, hsort, FApp.dedupSweep, descendingAudioStamps]
    rw [fapp_dedupGo_keep (by norm_num [FApp.isCloseToSeen])]
    iterate 11 rw [fapp_dedupGo_drop (by norm_num [FApp.isCloseToSeen, jsAbs])]
    rw [fapp_dedupGo_keep (by norm_num [FApp.isCloseToSeen, jsAbs])]
    rw [FApp.dedupGo]
    norm_num
  refine ⟨he, ?_⟩
  rw [he]
  intro hp
  have h10 : (10 : ℚ) < 223/25 :=
    (List.pairwise_cons.mp hp).1 ⟨223/25, FType.audio⟩ (List.mem_singleton.mpr rfl)
  norm_num at h10

/-- C10 amended: every marker list emitted by the cross-source merge of
`src/src/App.jsx` (inputs: priority-comment, regular-comment and audio
lists) is ordered by strictly ascending time with any two distinct
markers at least one second apart; for the frontend merge, which also
carries most-replayed candidates, any two distinct markers of every
emitted list are still at least one second apart, but the
ascending-order half does not hold there (tie-chained inputs can leave
the sort output descending). -/
theorem combined_merge_invariant_amended :
    (∀ p r a : List ℚ, (SrcApp.combinedTimestamps p r a).Pairwise
      (fun x y => x.time < y.time ∧ 1 ≤ jsAbs (y.time - x.time))) ∧
    (∀ X : List FApp.Stamp, (FApp.merge X).Pairwise
      (fun x y => 1 ≤ jsAbs (y.time - x.time))) := by
  constructor
  · intro p r a
    have h := SrcApp.merge_sep ((p.map fun t => SrcApp.formatStamp t .priority)
      ++ (r.map fun t => SrcApp.formatStamp t .comment)
      ++ (a.map fun t => SrcApp.formatStamp t .audio))
    refine h.imp fun hxy => ⟨by linarith, ?_⟩
    rw [jsAbs_eq_abs, abs_of_nonneg (by linarith)]
    linarith
  · exact fapp_merge_far
